import Mathlib

/-!
Verification of the segmented write-ahead log in `wal.go` (package `wal`).

The development shallowly embeds the writer (`WAL`), the reader (`Reader`) and
the retention operations (`TruncateBefore`, `CompressBefore`) over an explicit
model of the log directory.  Bytes are natural numbers, a segment's contents is
a `List Nat`, and the directory is a list of entries carrying the segment's
sequence number, whether the file has the `.snappy` suffix, and its stored
bytes.  Machine arithmetic that matters (the 32-bit big-endian length prefix
written by `encoding.PutUint32`) is modelled with explicit `% 2^32`.

Wall-clock reads performed by `newFileSequence` are modelled by an explicit
oracle `clock : Nat → Nat` consumed one index per call, so that claims about
sequence monotonicity can be settled faithfully (the source takes whatever the
clock returns, with no monotonicity guard).

Blocking behaviour (the 50 ms polling loops of `Reader.Read` and
`Reader.advance`) is modelled against the final state of the directory: a call
that would poll forever because no further bytes or segments will ever appear
is `none`/`blocked`.
-/

namespace Wal

/-! ## Byte-level framing (wal.go: `encoding = binary.BigEndian`, `sentinelBytes`) -/

/-- Big-endian 4-byte encoding of `uint32(n)`, as written by
`encoding.PutUint32(lenBuf, uint32(length))` in `WAL.Write`.  The Go conversion
`uint32(length)` truncates, hence the `% 2^32`. -/
def encodeLen (n : Nat) : List Nat :=
  [n % 4294967296 / 16777216, n % 4294967296 / 65536 % 256,
   n % 4294967296 / 256 % 256, n % 4294967296 % 256]

/-- Big-endian decoding of a 4-byte buffer, as read by `encoding.Uint32(lenBuf)`
in `Reader.Read`. -/
def decodeLen (l : List Nat) : Nat :=
  match l with
  | [a, b, c, d] => ((a * 256 + b) * 256 + c) * 256 + d
  | _ => 0

/-- The end-of-segment sentinel `sentinelBytes = make([]byte, 4)`. -/
def sentinelBytes : List Nat := [0, 0, 0, 0]

/-- `maxSegmentSize = int64(104857600)` (100 MiB). -/
def maxSegmentSize : Nat := 104857600

/-- One stored frame: 4-byte big-endian length prefix followed by the payload. -/
def frame (p : List Nat) : List Nat := encodeLen p.length ++ p

/-- The byte stream of a list of frames. -/
def framesBytes (g : List (List Nat)) : List Nat := (g.map frame).flatten

/-! ## Filenames

Canonical segment filenames are `sequenceToFilename(seq)` (the sequence
zero-padded to 19 digits), optionally followed by the `.snappy` suffix.  For
sequences below `10^19` (every `int64`), lexicographic order on these strings
is exactly lexicographic order on the pair `(sequence, hasSnappySuffix)`:
equal-width digit strings compare numerically, and a string is a strict prefix
of itself followed by `.snappy`.  Names are therefore modelled as such pairs,
with `false < true` on the suffix component. -/

/-- Lexicographic `name ≤ name` on `(sequence, hasSnappySuffix)` pairs,
mirroring Go string `<=` on canonical segment filenames. -/
def nameLe (a b : Nat × Bool) : Bool :=
  decide (a.1 < b.1) || (decide (a.1 = b.1) && (!a.2 || b.2))

/-- Lexicographic `name < name` on `(sequence, hasSnappySuffix)` pairs,
mirroring Go string `<` on canonical segment filenames. -/
def nameLt (a b : Nat × Bool) : Bool :=
  decide (a.1 < b.1) || (decide (a.1 = b.1) && (!a.2 && b.2))

/-- Go string `>=` on canonical names. -/
def nameGe (a b : Nat × Bool) : Bool := nameLe b a

/-- Go string `>` on canonical names. -/
def nameGt (a b : Nat × Bool) : Bool := nameLt b a

/-- Byte-wise lexicographic `<` on byte strings — exactly Go's string `<`. -/
def bytesLt : List Nat → List Nat → Bool
  | [], [] => false
  | [], _ :: _ => true
  | _ :: _, [] => false
  | a :: as, b :: bs => if a < b then true else if a = b then bytesLt as bs else false

/-- The decimal digits of `n` zero-padded to width `w`, as ASCII byte
values, most significant first. -/
def digitsPad : Nat → Nat → List Nat
  | 0, _ => []
  | w + 1, n => digitsPad w (n / 10) ++ [48 + n % 10]

/-- `sequenceToFilename(seq)`: `fmt.Sprintf("%019d", seq)` as bytes (for
sequences below `10^19`, i.e. every nonnegative `int64`). -/
def sequenceToFilename (seq : Nat) : List Nat := digitsPad 19 seq

/-- The bytes of `compressedSuffix = ".snappy"`. -/
def compressedSuffix : List Nat := [46, 115, 110, 97, 112, 112, 121]

/-- The actual filename bytes of a directory entry: the zero-padded
sequence, with the `.snappy` suffix on compressed twins. -/
def filenameBytes (seq : Nat) (comp : Bool) : List Nat :=
  sequenceToFilename seq ++ (if comp then compressedSuffix else [])

/-! ## The offset value

`Offset` lives in `offset.go`, outside the provided source file.
Modelled from the spec: "a two-field offset value (segment sequence, byte
position within the logical record stream of that segment)", with accessors
`FileSequence()` and `Position()` — an immutable pair. -/

/-- Modelled from the spec: an `Offset` is the pair
`(FileSequence(), Position())`. -/
abbrev Offset := Nat × Nat

/-! ## Writer (`WAL`) -/

/-- State of the writer.  `clock`/`clockIdx` model successive readings of
`newFileSequence()` (wall-clock microseconds); `closed` lists the segments the
writer has rotated out of, in creation order, with their final contents;
`segData` is the bytes so far appended to the active segment's buffered
writer (flushing is transparent in the model); `position` mirrors
`wal.position`. -/
structure WState where
  clock : Nat → Nat
  clockIdx : Nat
  closed : List (Nat × List Nat)
  fileSequence : Nat
  position : Nat
  segData : List Nat

/-- `WAL.advance`: take a fresh sequence from the clock, reset the position,
open the new file (the previous segment's bytes become final). -/
def wAdvance (w : WState) : WState :=
  { clock := w.clock
    clockIdx := w.clockIdx + 1
    closed := w.closed ++ [(w.fileSequence, w.segData)]
    fileSequence := w.clock w.clockIdx
    position := 0
    segData := [] }

/-- `Open` on an empty directory: advance into the first segment. -/
def walOpen (clock : Nat → Nat) : WState :=
  { clock := clock
    clockIdx := 1
    closed := []
    fileSequence := clock 0
    position := 0
    segData := [] }

/-- `WAL.Write(bufs...)`: if the total length is zero return `(0, nil)`;
otherwise append the 4-byte big-endian length prefix and then each buffer,
updating `position` by the bytes written; if `position` has reached
`maxSegmentSize`, append the sentinel and advance.  The returned integer is
the `n` of the last `writer.Write` call (4 from the length prefix when no
buffer follows, else the last buffer's length). -/
def walWrite (w : WState) (bufs : List (List Nat)) : Nat × WState :=
  if (bufs.map List.length).sum = 0 then (0, w)
  else if maxSegmentSize ≤ w.position + 4 + bufs.flatten.length then
    (bufs.foldl (fun _ b => b.length) 4,
      wAdvance
        { w with
          segData := w.segData ++ encodeLen ((bufs.map List.length).sum) ++
            bufs.flatten ++ sentinelBytes
          position := w.position + 4 + bufs.flatten.length })
  else
    (bufs.foldl (fun _ b => b.length) 4,
      { w with
        segData := w.segData ++ encodeLen ((bufs.map List.length).sum) ++ bufs.flatten
        position := w.position + 4 + bufs.flatten.length })

/-- A sequence of `Write` calls, each given as its list of buffers. -/
def walWriteMany (w : WState) (bss : List (List (List Nat))) : WState :=
  bss.foldl (fun w bufs => (walWrite w bufs).2) w

/-- The sequences of all segments this writer created, in creation order. -/
def segSeqs (w : WState) : List Nat := w.closed.map Prod.fst ++ [w.fileSequence]

/-- `WAL.hasMovedBeyond(fileSequence)`: `wal.fileSequence > fileSequence`. -/
def hasMovedBeyond (w : WState) (fileSequence : Nat) : Bool :=
  decide (fileSequence < w.fileSequence)

/-! ## The directory

One entry per file, in sorted (filename) order: sequence number
(`filenameToSequence` of the name, i.e. with any `.snappy` suffix stripped),
whether the file is the compressed twin, and the stored bytes. -/

/-- One file of the log directory. -/
structure DirEnt where
  seq : Nat
  comp : Bool
  stored : List Nat
deriving DecidableEq

/-- The canonical filename of an entry, as a `(sequence, hasSnappySuffix)`
pair; see the discussion above `nameLe`. -/
def nameOf (e : DirEnt) : Nat × Bool := (e.seq, e.comp)

/-- A streaming compressor with its decoder, standing for the Snappy framed
format (`snappy.NewWriter` / `snappy.NewReader`, an external library): any
encoder whose decoder restores the exact byte stream. -/
structure Codec where
  enc : List Nat → List Nat
  dec : List Nat → List Nat
  round : ∀ b, dec (enc b) = b

/-- The identity codec, the trivial instance of `Codec`. -/
def idCodec : Codec := ⟨id, id, fun _ => rfl⟩

/-- The logical (decoded) byte stream of a file: `Reader.open` wraps the file
in `snappy.NewReader` exactly when it is compressed. -/
def DirEnt.logical (c : Codec) (e : DirEnt) : List Nat :=
  if e.comp then c.dec e.stored else e.stored

/-- The directory corresponding to a writer state: the rotated-out segments
followed by the active segment, all uncompressed.  Sequences produced by a
strictly increasing clock make this name-sorted. -/
def walDir (w : WState) : List DirEnt :=
  w.closed.map (fun sc => ⟨sc.1, false, sc.2⟩) ++ [⟨w.fileSequence, false, w.segData⟩]

/-! ## Reader -/

/-- Reader state: its current sequence, logical position, and the remaining
logical bytes of the current segment (final directory state; a byte the
reader has not consumed yet is in `rest`). -/
structure RState where
  fileSequence : Nat
  position : Nat
  rest : List Nat
deriving DecidableEq

/-- `Reader.advance`: scan the (sorted) directory, skipping entries whose
sequence equals the reader's (the raw/compressed twin of the current segment),
and take the first whose name is strictly greater than the canonical name of
the reader's sequence.  `none` models the 50 ms retry loop polling forever
because no such file will ever exist. -/
def readerAdvance (dir : List DirEnt) (rseq : Nat) : Option DirEnt :=
  dir.find? (fun e => !(e.seq == rseq) && nameGt (nameOf e) (rseq, false))

/-- `Reader.Read`: read a 4-byte big-endian length (blocking while fewer than
4 bytes will ever be available); on the zero sentinel, advance and restart; on
a positive length, read that many payload bytes.  If the payload can never be
completed, consult `hasMovedBeyond`: if the writer has moved past this
segment, advance and restart the whole call (the partial frame is discarded),
otherwise poll forever (`none`).  `fuel` bounds the number of restarts; each
restart advances to a strictly later directory entry, so `dir.length + 1` is
always enough. -/
def readRecord (c : Codec) (dir : List DirEnt) (walSeq : Nat) :
    Nat → RState → Option (List Nat × RState)
  | 0, _ => none
  | fuel + 1, r =>
    if r.rest.length < 4 then none
    else if decodeLen (r.rest.take 4) = 0 then
      match readerAdvance dir r.fileSequence with
      | none => none
      | some e => readRecord c dir walSeq fuel ⟨e.seq, 0, e.logical c⟩
    else if decodeLen (r.rest.take 4) ≤ (r.rest.drop 4).length then
      some ((r.rest.drop 4).take (decodeLen (r.rest.take 4)),
        ⟨r.fileSequence, r.position + 4 + decodeLen (r.rest.take 4),
          (r.rest.drop 4).drop (decodeLen (r.rest.take 4))⟩)
    else if r.fileSequence < walSeq then
      match readerAdvance dir r.fileSequence with
      | none => none
      | some e => readRecord c dir walSeq fuel ⟨e.seq, 0, e.logical c⟩
    else none

/-- `n` successive `Read` calls, collecting the returned payloads. -/
def readN (c : Codec) (dir : List DirEnt) (walSeq : Nat) :
    Nat → RState → Option (List (List Nat) × RState)
  | 0, r => some ([], r)
  | n + 1, r =>
    match readRecord c dir walSeq (dir.length + 1) r with
    | none => none
    | some (b, r') =>
      match readN c dir walSeq n r' with
      | none => none
      | some (bs, r'') => some (b :: bs, r'')

/-- Result of `WAL.NewReader`: a reader, an error returned to the caller, or
blocking forever inside the initial `advance`. -/
inductive NRResult where
  | ok (r : RState)
  | error
  | blocked
deriving DecidableEq

/-- `Reader.open`: open the file (possibly its compressed twin), and if the
starting position is positive, discard that many logical bytes via
`io.CopyN`; `none` models the `EOF` error `CopyN` returns when the stream
holds fewer than `position` bytes. -/
def readerOpen (c : Codec) (e : DirEnt) (pos : Nat) : Option RState :=
  if pos = 0 then some ⟨e.seq, 0, e.logical c⟩
  else if pos ≤ (e.logical c).length then some ⟨e.seq, pos, (e.logical c).drop pos⟩
  else none

/-- The legacy-offset rescaling in `NewReader`: the first character of
`sequenceToFilename(seq)` is not `'0'` exactly when `seq ≥ 10^18`, in which
case the sequence is divided by 1000. -/
def legacyAdjust (seq : Nat) : Nat :=
  if 10 ^ 18 ≤ seq then seq / 1000 else seq

/-- The fallback at the end of `NewReader` (`r.file == nil`): `Reader.advance`
from the zero-initialized reader state. -/
def newReaderAdvance (c : Codec) (dir : List DirEnt) : NRResult :=
  match readerAdvance dir 0 with
  | some e => NRResult.ok ⟨e.seq, 0, e.logical c⟩
  | none => NRResult.blocked

/-- `WAL.NewReader(offset)`: with a nil offset, advance from the
zero-initialized state.  Otherwise rescale a legacy offset, scan the sorted
directory for the first name at or past the canonical cutoff, and open it —
at the offset's position on an exact sequence match, at 0 otherwise; an open
failure is returned to the caller as an error.  If no file is at or past the
cutoff, fall back to advancing from the zero-initialized state. -/
def newReader (c : Codec) (dir : List DirEnt) (offset : Option Offset) : NRResult :=
  match offset with
  | none => newReaderAdvance c dir
  | some o =>
    match dir.find? (fun e => nameGe (nameOf e) (legacyAdjust o.1, false)) with
    | some e =>
      match readerOpen c e (if e.seq = legacyAdjust o.1 then o.2 else 0) with
      | some r => NRResult.ok r
      | none => NRResult.error
    | none => newReaderAdvance c dir

/-! ## Retention: `TruncateBefore` and `CompressBefore` -/

/-- The files `WAL.TruncateBefore(offset)` removes: walk the sorted listing,
stopping at the last file or at the first whose name is at or past the
canonical name of `offset.FileSequence()`; every file walked over is
removed. -/
def truncRemoved (cut : Nat) : List DirEnt → List DirEnt
  | [] => []
  | [_] => []
  | e :: f :: t =>
    if nameGe (nameOf e) (cut, false) then []
    else e :: truncRemoved cut (f :: t)

/-- `WAL.CompressBefore(offset)`: same sweep bound as `TruncateBefore`; each
uncompressed file before the cutoff is streamed through the encoder into its
`.snappy` twin and the raw file is removed; already-compressed files are
skipped. -/
def compressBefore (c : Codec) (cut : Nat) : List DirEnt → List DirEnt
  | [] => []
  | [e] => [e]
  | e :: f :: t =>
    if nameGe (nameOf e) (cut, false) then e :: f :: t
    else if e.comp then e :: compressBefore c cut (f :: t)
    else ⟨e.seq, true, c.enc e.stored⟩ :: compressBefore c cut (f :: t)

/-- Reading the first `n` records from a fresh reader opened with a nil
offset, returning just the payloads. -/
def readFromStart (c : Codec) (dir : List DirEnt) (walSeq n : Nat) :
    Option (List (List Nat)) :=
  match newReader c dir none with
  | NRResult.ok r => (readN c dir walSeq n r).map Prod.fst
  | _ => none

/-! ## Derived descriptions of writer states

These definitions name the shape every reachable writer state has; the
`writerShape` theorems below prove the writer preserves it. -/

/-- The rotated-out segments corresponding to a partition of the written
payloads: the `k`-th closed segment carries sequence `clock (i + k)` and the
frames of its payload group followed by the sentinel. -/
def closedOf (clock : Nat → Nat) : Nat → List (List (List Nat)) → List (Nat × List Nat)
  | _, [] => []
  | i, g :: gs => (clock i, framesBytes g ++ sentinelBytes) :: closedOf clock (i + 1) gs

/-- The same partition as `(sequence, payload group)` pairs. -/
def closedPairs (clock : Nat → Nat) : Nat → List (List (List Nat)) → List (Nat × List (List Nat))
  | _, [] => []
  | i, g :: gs => (clock i, g) :: closedPairs clock (i + 1) gs

/-- The directory entry of a rotated-out (closed) segment. -/
def closedEnt (s : Nat) (g : List (List Nat)) : DirEnt :=
  ⟨s, false, framesBytes g ++ sentinelBytes⟩

/-- Directory entries of a list of closed segments. -/
def closedEnts (cs : List (Nat × List (List Nat))) : List DirEnt :=
  cs.map (fun sg => closedEnt sg.1 sg.2)

/-- Shape of a reachable writer state: the payloads written so far partition
into the groups `gs` filling the rotated-out segments (all nonempty, each
segment holding its group's frames plus the sentinel, with sequences taken
from successive clock readings) and the group `g` of the active segment. -/
def WriterShape (clock : Nat → Nat) (w : WState)
    (gs : List (List (List Nat))) (g : List (List Nat)) : Prop :=
  w.clock = clock ∧
  w.clockIdx = gs.length + 1 ∧
  w.closed = closedOf clock 0 gs ∧
  w.fileSequence = clock gs.length ∧
  w.segData = framesBytes g ∧
  w.position = (framesBytes g).length ∧
  (∀ x ∈ gs, x ≠ [])

/-- The nonempty payloads of a sequence of `Write` calls (each call's payload
is the concatenation of its buffers; empty payloads are dropped by the
`length == 0` early return). -/
def payloadsOf (bss : List (List (List Nat))) : List (List Nat) :=
  (bss.map List.flatten).filter (fun p => !(p.length == 0))

/-- Strict lexicographic order on `(fileSequence, position)` offsets. -/
def offsetLt (a b : Nat × Nat) : Prop :=
  a.1 < b.1 ∨ (a.1 = b.1 ∧ a.2 < b.2)

/-- Lexicographic order on `(fileSequence, position)` offsets. -/
def offsetLe (a b : Nat × Nat) : Prop :=
  a.1 < b.1 ∨ (a.1 = b.1 ∧ a.2 ≤ b.2)

/-! # Theorems

First the framing, name-order and bookkeeping lemmas, then one theorem per
claim (with its witness or counterexample). -/

theorem encodeLen_length (n : Nat) : (encodeLen n).length = 4 := rfl

theorem frame_length (p : List Nat) : (frame p).length = 4 + p.length := by
  simp [frame, encodeLen]
  omega

theorem decode_encode (n : Nat) : decodeLen (encodeLen n) = n % 4294967296 := by
  simp only [encodeLen, decodeLen]
  omega

theorem decode_encode_of_lt {n : Nat} (h : n < 4294967296) :
    decodeLen (encodeLen n) = n := by
  rw [decode_encode, Nat.mod_eq_of_lt h]

theorem encodeLen_zero : encodeLen 0 = sentinelBytes := rfl

theorem nameGe_raw (a : Nat × Bool) (s : Nat) :
    nameGe a (s, false) = true ↔ s ≤ a.1 := by
  rcases a with ⟨n, c⟩
  rcases c with _ | _ <;> simp [nameGe, nameLe] <;> omega

theorem nameLt_raw (a : Nat × Bool) (s : Nat) :
    nameLt a (s, false) = true ↔ a.1 < s := by
  rcases a with ⟨n, c⟩
  rcases c with _ | _ <;> simp [nameLt] <;> omega

theorem nameGt_raw (n s : Nat) (c : Bool) :
    nameGt (n, c) (s, false) = true ↔ (s < n ∨ (n = s ∧ c = true)) := by
  rcases c with _ | _ <;> simp [nameGt, nameLt] <;> omega

theorem nameLe_trans {a b c : Nat × Bool} (hab : nameLe a b = true)
    (hbc : nameLe b c = true) : nameLe a c = true := by
  rcases a with ⟨n1, c1⟩; rcases b with ⟨n2, c2⟩; rcases c with ⟨n3, c3⟩
  rcases c1 with _ | _ <;> rcases c2 with _ | _ <;> rcases c3 with _ | _ <;>
    simp [nameLe] at * <;> omega

theorem nameLt_iff_not_le {a b : Nat × Bool} :
    nameLt a b = true ↔ ¬ nameLe b a = true := by
  rcases a with ⟨n1, c1⟩; rcases b with ⟨n2, c2⟩
  rcases c1 with _ | _ <;> rcases c2 with _ | _ <;>
    simp [nameLt, nameLe] <;> omega

theorem flatten_length (bufs : List (List Nat)) :
    bufs.flatten.length = (bufs.map List.length).sum :=
  List.length_flatten bufs

/-- The corruption test in `readRecord` (`fileSequence < walSeq`) is exactly
`wal.hasMovedBeyond(r.fileSequence)` for a writer currently at `walSeq`. -/
theorem hasMovedBeyond_iff (w : WState) (seq : Nat) :
    hasMovedBeyond w seq = true ↔ seq < w.fileSequence := by
  simp [hasMovedBeyond]

/-! ### The `(sequence, hasSnappySuffix)` pairs order canonical filenames
faithfully: byte-wise string comparison of the actual zero-padded filenames
agrees with `nameLt` for all `int64` sequences. -/

theorem digitsPad_length : ∀ (w n : Nat), (digitsPad w n).length = w := by
  intro w
  induction w with
  | zero => intro n; rfl
  | succ w ih =>
    intro n
    rw [digitsPad, List.length_append, ih (n / 10)]
    rfl

theorem bytesLt_single (x y : Nat) : bytesLt [x] [y] = true ↔ x < y := by
  rw [bytesLt]
  by_cases h1 : x < y
  · simp [h1]
  · by_cases h2 : x = y
    · simp [h1, h2, bytesLt]
    · simp [h1, h2]

theorem bytesLt_append (xs ys : List Nat) :
    ∀ (as bs : List Nat), as.length = bs.length →
      (bytesLt (as ++ xs) (bs ++ ys) = true ↔
        (bytesLt as bs = true ∨ (as = bs ∧ bytesLt xs ys = true))) := by
  intro as
  induction as with
  | nil =>
    intro bs h
    cases bs with
    | nil => simp [bytesLt]
    | cons b bs => simp at h
  | cons a as ih =>
    intro bs h
    cases bs with
    | nil => simp at h
    | cons b bs =>
      simp only [List.length_cons] at h
      rw [List.cons_append, List.cons_append, bytesLt]
      by_cases h1 : a < b
      · rw [if_pos h1, bytesLt, if_pos h1]
        simp [Nat.ne_of_lt h1]
      · by_cases h2 : a = b
        · subst h2
          rw [if_neg h1, if_pos rfl, bytesLt, if_neg h1, if_pos rfl,
            ih bs (by omega)]
          simp
        · rw [if_neg h1, if_neg h2, bytesLt, if_neg h1, if_neg h2]
          simp [h2]

theorem digitsPad_inj : ∀ (w n m : Nat), n < 10 ^ w → m < 10 ^ w →
    (digitsPad w n = digitsPad w m ↔ n = m) := by
  intro w
  induction w with
  | zero =>
    intro n m hn hm
    rw [pow_zero] at hn hm
    have hn0 : n = 0 := by omega
    have hm0 : m = 0 := by omega
    subst hn0
    subst hm0
    simp
  | succ w ih =>
    intro n m hn hm
    rw [pow_succ] at hn hm
    have hn10 : n / 10 < 10 ^ w := by omega
    have hm10 : m / 10 < 10 ^ w := by omega
    rw [digitsPad, digitsPad]
    constructor
    · intro h
      have h2 := List.append_inj h (by rw [digitsPad_length, digitsPad_length])
      have h3 := (ih (n / 10) (m / 10) hn10 hm10).mp h2.1
      have h4 : 48 + n % 10 = 48 + m % 10 := by
        have := h2.2
        simpa using this
      omega
    · intro h
      rw [h]

theorem digitsPad_lt : ∀ (w n m : Nat), n < 10 ^ w → m < 10 ^ w →
    (bytesLt (digitsPad w n) (digitsPad w m) = true ↔ n < m) := by
  intro w
  induction w with
  | zero =>
    intro n m hn hm
    rw [pow_zero] at hn hm
    have hn0 : n = 0 := by omega
    have hm0 : m = 0 := by omega
    subst hn0
    subst hm0
    simp [digitsPad, bytesLt]
  | succ w ih =>
    intro n m hn hm
    rw [pow_succ] at hn hm
    have hn10 : n / 10 < 10 ^ w := by omega
    have hm10 : m / 10 < 10 ^ w := by omega
    rw [digitsPad, digitsPad,
      bytesLt_append [48 + n % 10] [48 + m % 10] (digitsPad w (n / 10))
        (digitsPad w (m / 10)) (by rw [digitsPad_length, digitsPad_length]),
      ih (n / 10) (m / 10) hn10 hm10, digitsPad_inj w (n / 10) (m / 10) hn10 hm10,
      bytesLt_single]
    omega

theorem filename_lt_correct (s1 s2 : Nat) (c1 c2 : Bool)
    (h1 : s1 < 10 ^ 19) (h2 : s2 < 10 ^ 19) :
    (bytesLt (filenameBytes s1 c1) (filenameBytes s2 c2) = true ↔
      nameLt (s1, c1) (s2, c2) = true) := by
  rw [filenameBytes, filenameBytes, sequenceToFilename, sequenceToFilename,
    bytesLt_append _ _ (digitsPad 19 s1) (digitsPad 19 s2)
      (by rw [digitsPad_length, digitsPad_length]),
    digitsPad_lt 19 s1 s2 h1 h2, digitsPad_inj 19 s1 s2 h1 h2]
  cases c1 <;> cases c2 <;> simp [bytesLt, nameLt, compressedSuffix] <;> omega

/-- The legacy-offset test in `NewReader` — "the first character of the
canonical filename is not `'0'`" — holds exactly when the sequence is at
least `10^18`, which is what `legacyAdjust` tests. -/
theorem digitsPad_head : ∀ (w n : Nat),
    (digitsPad (w + 1) n).head? = some (48 + n / 10 ^ w % 10) := by
  intro w
  induction w with
  | zero =>
    intro n
    rw [digitsPad, digitsPad]
    simp
  | succ w ih =>
    intro n
    rw [digitsPad, List.head?_append, ih (n / 10)]
    rw [Nat.div_div_eq_div_mul, show 10 * 10 ^ w = 10 ^ (w + 1) by rw [pow_succ]; omega]
    rfl

theorem legacyAdjust_matches_filename (seq : Nat) (h : seq < 10 ^ 19) :
    ((sequenceToFilename seq).head? ≠ some 48 ↔ 10 ^ 18 ≤ seq) := by
  rw [sequenceToFilename, show (19 : Nat) = 18 + 1 from rfl, digitsPad_head 18 seq]
  have h18 : (10 : Nat) ^ 18 = 1000000000000000000 := by norm_num
  have h19 : (10 : Nat) ^ 19 = 10000000000000000000 := by norm_num
  rw [h18]
  rw [h19] at h
  simp only [ne_eq, Option.some.injEq]
  omega

/-! ## Claim C8: the return value of `Write` -/

theorem walWrite_fst (w : WState) (bufs : List (List Nat))
    (h0 : (bufs.map List.length).sum ≠ 0) :
    (walWrite w bufs).1 = bufs.foldl (fun _ b => b.length) 4 := by
  rw [walWrite, if_neg h0]
  split <;> rfl

theorem foldl_lastD (l : List (List Nat)) (x : Nat) (h : l ≠ []) :
    l.foldl (fun _ b => b.length) x = (l.getLastD []).length := by
  induction l generalizing x with
  | nil => exact absurd rfl h
  | cons b t ih =>
    cases t with
    | nil => simp
    | cons b2 t2 =>
      rw [List.foldl_cons, ih b.length (by simp)]
      simp [List.getLastD_cons]

theorem getLastD_length_le_sum (l : List (List Nat)) (h : l ≠ []) :
    (l.getLastD []).length ≤ (l.map List.length).sum := by
  have hm : l.getLastD [] ∈ l := by
    rw [List.getLastD_eq_getLast?, List.getLast?_eq_getLast l h]
    exact List.getLast_mem h
  exact List.le_sum_of_mem (List.mem_map_of_mem List.length hm)

/-- C8: for every `Write` call whose buffers have positive total length, the
returned integer is the length of the last buffer alone — never the full
frame size (4-byte length prefix plus all payload bytes). -/
theorem c8_write_returns_last_buffer (w : WState) (bufs : List (List Nat))
    (h : 0 < (bufs.map List.length).sum) :
    (walWrite w bufs).1 = (bufs.getLastD []).length ∧
      (walWrite w bufs).1 ≠ 4 + (bufs.map List.length).sum := by
  have hne : bufs ≠ [] := by rintro rfl; simp at h
  rw [walWrite_fst w bufs (by omega), foldl_lastD bufs 4 hne]
  have := getLastD_length_le_sum bufs hne
  exact ⟨rfl, by omega⟩

/-- Witness for C8 at a concrete input: `Write([1,2],[3])` returns 1 (the
last buffer's length), not the frame size 7. -/
theorem c8_write_returns_last_buffer_witness :
    (walWrite (walOpen (fun i => i + 1)) [[1, 2], [3]]).1 = ([3] : List Nat).length ∧
      (walWrite (walOpen (fun i => i + 1)) [[1, 2], [3]]).1 ≠ 4 + 3 := by
  have h := c8_write_returns_last_buffer (walOpen (fun i => i + 1)) [[1, 2], [3]] (by decide)
  simpa using h

/-! ## Claim C9: `Read` never returns an empty record -/

/-- C9: every successful `Read` returns a payload whose length is strictly
positive and equal to the decoded 4-byte big-endian length prefix of the
frame it was consumed from: there is a reader state `s` (the state from
which the final frame was read — `r` itself, or the state after the sentinel
and corruption advances) whose next 4 bytes decode to the payload's length,
whose following bytes begin with the payload, and from which the final state
is the corresponding 4 + length byte advance.  A zero-length frame is
consumed as the end-of-segment sentinel and never delivered ("freshly
allocated" is a property of Go memory, outside the model). -/
theorem c9_read_never_empty (c : Codec) (dir : List DirEnt) (walSeq : Nat) :
    ∀ (fuel : Nat) (r : RState) (b : List Nat) (r' : RState),
      readRecord c dir walSeq fuel r = some (b, r') →
      0 < b.length ∧
        ∃ s : RState, decodeLen (s.rest.take 4) = b.length ∧
          b = (s.rest.drop 4).take b.length ∧
          r' = ⟨s.fileSequence, s.position + 4 + b.length,
            (s.rest.drop 4).drop b.length⟩ := by
  intro fuel
  induction fuel with
  | zero => intro r b r' h; simp [readRecord] at h
  | succ fuel ih =>
    intro r b r' h
    rw [readRecord] at h
    by_cases h4 : r.rest.length < 4
    · rw [if_pos h4] at h; exact absurd h (by simp)
    · rw [if_neg h4] at h
      by_cases hL : decodeLen (r.rest.take 4) = 0
      · rw [if_pos hL] at h
        cases hadv : readerAdvance dir r.fileSequence with
        | none => rw [hadv] at h; exact absurd h (by simp)
        | some e => rw [hadv] at h; exact ih _ _ _ h
      · rw [if_neg hL] at h
        by_cases hfit : decodeLen (r.rest.take 4) ≤ (r.rest.drop 4).length
        · rw [if_pos hfit] at h
          simp only [Option.some.injEq, Prod.mk.injEq] at h
          obtain ⟨hb, hr⟩ := h
          have hlb : b.length = decodeLen (r.rest.take 4) := by
            rw [← hb, List.length_take]
            omega
          refine ⟨by omega, r, hlb.symm, ?_, ?_⟩
          · rw [hlb, ← hb]
          · rw [← hr, hlb]
        · rw [if_neg hfit] at h
          by_cases hm : r.fileSequence < walSeq
          · rw [if_pos hm] at h
            cases hadv : readerAdvance dir r.fileSequence with
            | none => rw [hadv] at h; exact absurd h (by simp)
            | some e => rw [hadv] at h; exact ih _ _ _ h
          · rw [if_neg hm] at h; exact absurd h (by simp)

/-- Witness for C9 at a concrete input: reading the frame `00 00 00 01 09`
returns the 1-byte nonempty payload `[9]`, whose length matches its decoded
length prefix. -/
theorem c9_read_never_empty_witness :
    0 < ([9] : List Nat).length ∧
      ∃ s : RState, decodeLen (s.rest.take 4) = ([9] : List Nat).length ∧
        ([9] : List Nat) = (s.rest.drop 4).take ([9] : List Nat).length ∧
        (⟨1, 5, []⟩ : RState) = ⟨s.fileSequence, s.position + 4 + ([9] : List Nat).length,
          (s.rest.drop 4).drop ([9] : List Nat).length⟩ :=
  c9_read_never_empty idCodec [⟨1, false, [0, 0, 0, 1, 9]⟩] 1 2
    ⟨1, 0, [0, 0, 0, 1, 9]⟩ [9] ⟨1, 5, []⟩ (by decide)

/-! ## Claim C10: `NewReader` position overrun is an error -/

/-- C10: if `NewReader` is given an offset whose file sequence matches the
directory entry the cutoff scan selects, but whose position exceeds the
number of logical bytes available in that segment, the skip-read of
`offset.Position()` bytes fails with `EOF` and `NewReader` returns an error —
it neither blocks nor silently starts elsewhere. -/
theorem c10_position_overrun_errors (c : Codec) (dir : List DirEnt) (o : Offset)
    (e : DirEnt)
    (h18 : o.1 < 10 ^ 18)
    (hfind : dir.find? (fun x => nameGe (nameOf x) (o.1, false)) = some e)
    (hseq : e.seq = o.1)
    (hpos : (e.logical c).length < o.2) :
    newReader c dir (some o) = NRResult.error := by
  have hadj : legacyAdjust o.1 = o.1 := by rw [legacyAdjust, if_neg (by omega)]
  have hopen : readerOpen c e o.2 = none := by
    rw [readerOpen, if_neg (by omega), if_neg (by omega)]
  simp only [newReader, hadj, hfind, if_pos hseq, hopen]

/-- Witness for C10 at a concrete input: a segment holding 5 logical bytes,
opened at offset position 6, yields an error. -/
theorem c10_position_overrun_errors_witness :
    newReader idCodec [⟨3, false, [0, 0, 0, 1, 7]⟩] (some (3, 6)) = NRResult.error :=
  c10_position_overrun_errors idCodec [⟨3, false, [0, 0, 0, 1, 7]⟩] (3, 6)
    ⟨3, false, [0, 0, 0, 1, 7]⟩ (by norm_num) (by decide) (by decide) (by decide)

/-! ## Claim C3: corruption recovery restarts the call in the next segment -/

/-- C3: if while reading a record's payload the reader reaches the end of the
stream with the payload incomplete, and the writer's sequence is strictly
beyond the reader's (`hasMovedBeyond`), then `Read` does not return an error:
it advances to the segment `Reader.advance` finds, discards the partially
consumed frame, and restarts the whole call — it behaves exactly as a fresh
`Read` from the start of the next segment. -/
theorem c3_corruption_restart (c : Codec) (dir : List DirEnt) (walSeq fuel : Nat)
    (r : RState) (L : Nat) (part : List Nat) (e : DirEnt)
    (hrest : r.rest = encodeLen L ++ part)
    (hL0 : 0 < L) (hL32 : L < 4294967296)
    (hshort : part.length < L)
    (hmoved : r.fileSequence < walSeq)
    (hadv : readerAdvance dir r.fileSequence = some e) :
    readRecord c dir walSeq (fuel + 1) r =
      readRecord c dir walSeq fuel ⟨e.seq, 0, e.logical c⟩ := by
  have hlen : r.rest.length = 4 + part.length := by
    rw [hrest, List.length_append, encodeLen_length]
  have htake : r.rest.take 4 = encodeLen L := by
    rw [hrest]; exact List.take_left' (encodeLen_length L)
  have hdrop : r.rest.drop 4 = part := by
    rw [hrest]; exact List.drop_left' (encodeLen_length L)
  rw [readRecord, if_neg (by omega), htake, decode_encode_of_lt hL32,
    if_neg (by omega), hdrop, if_neg (by omega), if_pos hmoved, hadv]

/-- Witness for C3 at a concrete input: a frame promising 5 payload bytes of
which only 2 exist, with the writer one segment ahead, makes `Read` restart
from the start of the next segment. -/
theorem c3_corruption_restart_witness :
    readRecord idCodec [⟨1, false, [0, 0, 0, 5, 1, 2]⟩, ⟨2, false, [0, 0, 0, 1, 9]⟩] 2 2
        ⟨1, 0, [0, 0, 0, 5, 1, 2]⟩ =
      readRecord idCodec [⟨1, false, [0, 0, 0, 5, 1, 2]⟩, ⟨2, false, [0, 0, 0, 1, 9]⟩] 2 1
        ⟨2, 0, DirEnt.logical idCodec ⟨2, false, [0, 0, 0, 1, 9]⟩⟩ :=
  c3_corruption_restart idCodec [⟨1, false, [0, 0, 0, 5, 1, 2]⟩, ⟨2, false, [0, 0, 0, 1, 9]⟩]
    2 1 ⟨1, 0, [0, 0, 0, 5, 1, 2]⟩ 5 [1, 2] ⟨2, false, [0, 0, 0, 1, 9]⟩
    (by decide) (by decide) (by decide) (by decide) (by decide) (by decide)

/-! ## Claim C5: reader offsets are monotonic -/

theorem readerAdvance_seq_lt {dir : List DirEnt} {q : Nat} {e : DirEnt}
    (h : readerAdvance dir q = some e) : q < e.seq := by
  have hp := List.find?_some h
  simp only [nameOf, Bool.and_eq_true, Bool.not_eq_true', beq_eq_false_iff_ne] at hp
  obtain ⟨hne, hgt⟩ := hp
  rcases (nameGt_raw e.seq q e.comp).mp hgt with h1 | ⟨h1, _⟩
  · exact h1
  · exact absurd h1 hne

theorem readRecord_offset_mono (c : Codec) (dir : List DirEnt) (walSeq : Nat) :
    ∀ (fuel : Nat) (r : RState) (b : List Nat) (r' : RState),
      readRecord c dir walSeq fuel r = some (b, r') →
      offsetLe (r.fileSequence, r.position) (r'.fileSequence, r'.position) ∧
        offsetLt (r.fileSequence, r.position) (r'.fileSequence, r'.position) := by
  intro fuel
  induction fuel with
  | zero => intro r b r' h; simp [readRecord] at h
  | succ fuel ih =>
    intro r b r' h
    rw [readRecord] at h
    by_cases h4 : r.rest.length < 4
    · rw [if_pos h4] at h; exact absurd h (by simp)
    · rw [if_neg h4] at h
      by_cases hL : decodeLen (r.rest.take 4) = 0
      · rw [if_pos hL] at h
        cases hadv : readerAdvance dir r.fileSequence with
        | none => rw [hadv] at h; exact absurd h (by simp)
        | some e =>
          rw [hadv] at h
          have hlt := readerAdvance_seq_lt hadv
          have hm := ih _ _ _ h
          simp [offsetLe, offsetLt] at hm ⊢
          omega
      · rw [if_neg hL] at h
        by_cases hfit : decodeLen (r.rest.take 4) ≤ (r.rest.drop 4).length
        · rw [if_pos hfit] at h
          simp only [Option.some.injEq, Prod.mk.injEq] at h
          obtain ⟨_, hr⟩ := h
          subst hr
          simp [offsetLe, offsetLt]
          omega
        · rw [if_neg hfit] at h
          by_cases hm : r.fileSequence < walSeq
          · rw [if_pos hm] at h
            cases hadv : readerAdvance dir r.fileSequence with
            | none => rw [hadv] at h; exact absurd h (by simp)
            | some e =>
              rw [hadv] at h
              have hlt := readerAdvance_seq_lt hadv
              have hmono := ih _ _ _ h
              simp [offsetLe, offsetLt] at hmono ⊢
              omega
          · rw [if_neg hm] at h; exact absurd h (by simp)

theorem readN_offset_mono (c : Codec) (dir : List DirEnt) (walSeq : Nat) :
    ∀ (n : Nat) (r : RState) (bs : List (List Nat)) (r' : RState),
      readN c dir walSeq n r = some (bs, r') →
      offsetLe (r.fileSequence, r.position) (r'.fileSequence, r'.position) := by
  intro n
  induction n with
  | zero =>
    intro r bs r' h
    simp only [readN, Option.some.injEq, Prod.mk.injEq] at h
    obtain ⟨_, hr⟩ := h
    subst hr
    simp [offsetLe]
  | succ n ih =>
    intro r bs r' h
    rw [readN] at h
    cases h1 : readRecord c dir walSeq (dir.length + 1) r with
    | none => rw [h1] at h; exact absurd h (by simp)
    | some br =>
      obtain ⟨b, r1⟩ := br
      rw [h1] at h
      dsimp only at h
      cases h2 : readN c dir walSeq n r1 with
      | none => rw [h2] at h; exact absurd h (by simp)
      | some bsr =>
        obtain ⟨bs1, r2⟩ := bsr
        rw [h2] at h
        dsimp only at h
        simp only [Option.some.injEq, Prod.mk.injEq] at h
        obtain ⟨_, hr⟩ := h
        subst hr
        have hstep := (readRecord_offset_mono c dir walSeq _ _ _ _ h1).1
        have hrest := ih r1 bs1 r2 h2
        simp only [offsetLe] at hstep hrest ⊢
        omega

/-- C5: every successful `Read` strictly increases the reader's
`(fileSequence, position)` offset in lexicographic order, and across any
number of successive successful `Read` calls the offset is lexicographically
nondecreasing. -/
theorem c5_offsets_monotonic (c : Codec) (dir : List DirEnt) (walSeq : Nat) :
    (∀ (fuel : Nat) (r : RState) (b : List Nat) (r' : RState),
        readRecord c dir walSeq fuel r = some (b, r') →
        offsetLe (r.fileSequence, r.position) (r'.fileSequence, r'.position) ∧
          offsetLt (r.fileSequence, r.position) (r'.fileSequence, r'.position)) ∧
      (∀ (n : Nat) (r : RState) (bs : List (List Nat)) (r' : RState),
        readN c dir walSeq n r = some (bs, r') →
        offsetLe (r.fileSequence, r.position) (r'.fileSequence, r'.position)) :=
  ⟨readRecord_offset_mono c dir walSeq, readN_offset_mono c dir walSeq⟩

/-- Witness for C5 at a concrete input: reading one record moves the offset
from `(1, 0)` strictly up to `(1, 5)`, and one successful `Read` call keeps
the offsets nondecreasing. -/
theorem c5_offsets_monotonic_witness :
    (offsetLe (1, 0) (1, 5) ∧ offsetLt (1, 0) (1, 5)) ∧ offsetLe (1, 0) (1, 5) := by
  have h := c5_offsets_monotonic idCodec [⟨1, false, [0, 0, 0, 1, 9]⟩] 1
  have h1 := h.1 2 ⟨1, 0, [0, 0, 0, 1, 9]⟩ [9] ⟨1, 5, []⟩ (by decide)
  have h2 := h.2 1 ⟨1, 0, [0, 0, 0, 1, 9]⟩ [[9]] ⟨1, 5, []⟩ (by decide)
  exact ⟨by simpa using h1, by simpa using h2⟩

/-! ## Claim C4: which files `TruncateBefore` removes -/

theorem truncRemoved_eq_filter (cut : Nat) (dir : List DirEnt)
    (hsorted : dir.Pairwise (fun a b => nameLe (nameOf a) (nameOf b) = true)) :
    truncRemoved cut dir =
      dir.dropLast.filter (fun e => nameLt (nameOf e) (cut, false)) := by
  induction dir with
  | nil => simp [truncRemoved]
  | cons e rest ih =>
    cases rest with
    | nil => simp [truncRemoved]
    | cons f t =>
      obtain ⟨hhead, htail⟩ := List.pairwise_cons.mp hsorted
      rw [List.dropLast_cons_of_ne_nil (List.cons_ne_nil f t)]
      by_cases hge : nameGe (nameOf e) (cut, false) = true
      · have hge' : nameLe (cut, false) (nameOf e) = true := by
          simpa [nameGe] using hge
        rw [truncRemoved, if_pos hge]
        symm
        rw [List.filter_eq_nil_iff]
        intro x hx
        rcases List.mem_cons.mp hx with hx | hx
        · subst hx
          intro hcon
          exact (nameLt_iff_not_le.mp hcon) hge'
        · have hmem : x ∈ f :: t := List.dropLast_subset _ hx
          have hle : nameLe (nameOf e) (nameOf x) = true := hhead x hmem
          intro hcon
          exact (nameLt_iff_not_le.mp hcon) (nameLe_trans hge' hle)
      · have hlt : nameLt (nameOf e) (cut, false) = true :=
          nameLt_iff_not_le.mpr (by simpa [nameGe] using hge)
        rw [truncRemoved, if_neg hge, ih htail]
        simp [List.filter_cons, hlt]

/-- C4: on a name-sorted directory listing, `TruncateBefore(offset)` removes
exactly the files whose name is lexicographically below the canonical
filename of `offset.FileSequence()`, except that the last file of the listing
is never removed; a file whose name equals the cutoff is kept, and with at
most one file nothing is removed. -/
theorem c4_truncate_before (cut : Nat) (dir : List DirEnt)
    (hsorted : dir.Pairwise (fun a b => nameLe (nameOf a) (nameOf b) = true)) :
    truncRemoved cut dir =
        dir.dropLast.filter (fun e => nameLt (nameOf e) (cut, false)) ∧
      (∀ e ∈ truncRemoved cut dir, nameLt (nameOf e) (cut, false) = true) ∧
      (∀ e ∈ truncRemoved cut dir, nameOf e ≠ (cut, false)) ∧
      (dir.length ≤ 1 → truncRemoved cut dir = []) := by
  have heq := truncRemoved_eq_filter cut dir hsorted
  refine ⟨heq, ?_, ?_, ?_⟩
  · intro e he
    rw [heq] at he
    have h2 := (List.mem_filter.mp he).2
    simpa using h2
  · intro e he hname
    rw [heq] at he
    have h2 := (List.mem_filter.mp he).2
    simp only at h2
    rw [hname] at h2
    have hirr := nameLt_iff_not_le.mp h2
    exact hirr (by simp [nameLe])
  · intro hlen
    match dir with
    | [] => rfl
    | [x] => rfl
    | x :: y :: t => simp at hlen

/-- Witness for C4 at a concrete input: three sorted files with the cutoff
equal to the middle name removes only the first file. -/
theorem c4_truncate_before_witness :
    truncRemoved 2 [⟨1, false, []⟩, ⟨2, false, []⟩, ⟨3, false, []⟩] =
        ([⟨1, false, []⟩, ⟨2, false, []⟩, ⟨3, false, []⟩] : List DirEnt).dropLast.filter
          (fun e => nameLt (nameOf e) (2, false)) ∧
      (∀ e ∈ truncRemoved 2 [⟨1, false, []⟩, ⟨2, false, []⟩, ⟨3, false, []⟩],
        nameLt (nameOf e) (2, false) = true) ∧
      (∀ e ∈ truncRemoved 2 [⟨1, false, []⟩, ⟨2, false, []⟩, ⟨3, false, []⟩],
        nameOf e ≠ (2, false)) ∧
      (([⟨1, false, []⟩, ⟨2, false, []⟩, ⟨3, false, []⟩] : List DirEnt).length ≤ 1 →
        truncRemoved 2 [⟨1, false, []⟩, ⟨2, false, []⟩, ⟨3, false, []⟩] = []) :=
  c4_truncate_before 2 [⟨1, false, []⟩, ⟨2, false, []⟩, ⟨3, false, []⟩] (by decide)

/-! ## The shape of reachable writer states -/

theorem framesBytes_nil : framesBytes [] = [] := rfl

theorem framesBytes_cons (p : List Nat) (g : List (List Nat)) :
    framesBytes (p :: g) = frame p ++ framesBytes g := by
  simp [framesBytes]

theorem framesBytes_append_one (g : List (List Nat)) (p : List Nat) :
    framesBytes (g ++ [p]) = framesBytes g ++ frame p := by
  simp [framesBytes]

theorem closedOf_append_one (clock : Nat → Nat) (gs : List (List (List Nat)))
    (x : List (List Nat)) :
    ∀ i, closedOf clock i (gs ++ [x]) =
      closedOf clock i gs ++ [(clock (i + gs.length), framesBytes x ++ sentinelBytes)] := by
  induction gs with
  | nil => intro i; simp [closedOf]
  | cons g gs ih =>
    intro i
    rw [List.cons_append, closedOf, closedOf, ih (i + 1)]
    simp only [List.cons_append, List.length_cons]
    rw [show i + 1 + gs.length = i + (gs.length + 1) by omega]

theorem writerShape_open (clock : Nat → Nat) :
    WriterShape clock (walOpen clock) [] [] := by
  exact ⟨rfl, rfl, rfl, rfl, rfl, rfl, by simp⟩

theorem writerShape_step (clock : Nat → Nat) (w : WState) (gs : List (List (List Nat)))
    (g : List (List Nat)) (bufs : List (List Nat)) (h : WriterShape clock w gs g) :
    ∃ gs' g', WriterShape clock (walWrite w bufs).2 gs' g' ∧
      gs'.flatten ++ g' = (gs.flatten ++ g) ++
        (if (bufs.map List.length).sum = 0 then [] else [bufs.flatten]) := by
  obtain ⟨hclock, hidx, hclosed, hfs, hdata, hpos, hne⟩ := h
  have hsum : (bufs.map List.length).sum = bufs.flatten.length :=
    (flatten_length bufs).symm
  by_cases h0 : (bufs.map List.length).sum = 0
  · refine ⟨gs, g, ?_, ?_⟩
    · rw [walWrite, if_pos h0]
      exact ⟨hclock, hidx, hclosed, hfs, hdata, hpos, hne⟩
    · rw [if_pos h0]
      simp
  · by_cases hroll : maxSegmentSize ≤ w.position + 4 + bufs.flatten.length
    · refine ⟨gs ++ [g ++ [bufs.flatten]], [], ?_, ?_⟩
      · rw [walWrite, if_neg h0, if_pos hroll]
        refine ⟨hclock, ?_, ?_, ?_, rfl, rfl, ?_⟩
        · simp only [wAdvance, hidx, List.length_append, List.length_cons,
            List.length_nil]
        · show w.closed ++ [(w.fileSequence, _)] = _
          rw [hclosed, hfs, closedOf_append_one clock gs (g ++ [bufs.flatten]) 0, hdata]
          simp only [Nat.zero_add]
          rw [framesBytes_append_one, frame, hsum]
          simp [List.append_assoc]
        · show w.clock w.clockIdx = _
          rw [hclock, hidx]
          simp
        · intro x hx
          rcases List.mem_append.mp hx with hx | hx
          · exact hne x hx
          · simp at hx; subst hx; simp
      · rw [if_neg h0]
        simp [List.flatten_append]
    · refine ⟨gs, g ++ [bufs.flatten], ?_, ?_⟩
      · rw [walWrite, if_neg h0, if_neg hroll]
        refine ⟨hclock, hidx, hclosed, hfs, ?_, ?_, hne⟩
        · show w.segData ++ _ ++ _ = _
          rw [hdata, framesBytes_append_one, frame, hsum, List.append_assoc]
        · show w.position + 4 + bufs.flatten.length = _
          rw [hpos, framesBytes_append_one, List.length_append, frame_length]
          omega
      · rw [if_neg h0]
        simp

theorem payloadsOf_cons (bufs : List (List Nat)) (bss : List (List (List Nat))) :
    payloadsOf (bufs :: bss) =
      (if (bufs.map List.length).sum = 0 then [] else [bufs.flatten]) ++ payloadsOf bss := by
  rw [payloadsOf, List.map_cons, List.filter_cons, payloadsOf]
  by_cases h : (bufs.map List.length).sum = 0
  · have h2 : bufs.flatten.length = 0 := by rw [flatten_length]; exact h
    rw [if_pos h]
    simp [h2]
  · have h2 : ¬ bufs.flatten.length = 0 := by rw [flatten_length]; exact h
    rw [if_neg h]
    simp [h2, h]

theorem writerShape_many (clock : Nat → Nat) :
    ∀ (bss : List (List (List Nat))) (w : WState) (gs : List (List (List Nat)))
      (g : List (List Nat)), WriterShape clock w gs g →
      ∃ gs' g', WriterShape clock (walWriteMany w bss) gs' g' ∧
        gs'.flatten ++ g' = (gs.flatten ++ g) ++ payloadsOf bss := by
  intro bss
  induction bss with
  | nil =>
    intro w gs g h
    exact ⟨gs, g, h, by simp [payloadsOf, walWriteMany]⟩
  | cons bufs bss ih =>
    intro w gs g h
    obtain ⟨gs1, g1, h1, he1⟩ := writerShape_step clock w gs g bufs h
    obtain ⟨gs2, g2, h2, he2⟩ := ih (walWrite w bufs).2 gs1 g1 h1
    refine ⟨gs2, g2, ?_, ?_⟩
    · rw [walWriteMany, List.foldl_cons]
      exact h2
    · rw [he2, he1, payloadsOf_cons]
      simp [List.append_assoc]

/-! ## Claim C6: writer sequence monotonicity -/

theorem mem_closedOf_fst (clock : Nat → Nat) :
    ∀ (gs : List (List (List Nat))) (i s : Nat),
      s ∈ (closedOf clock i gs).map Prod.fst →
      ∃ j, i ≤ j ∧ j < i + gs.length ∧ s = clock j := by
  intro gs
  induction gs with
  | nil => intro i s h; simp [closedOf] at h
  | cons g gs ih =>
    intro i s h
    rw [closedOf, List.map_cons] at h
    rcases List.mem_cons.mp h with h | h
    · exact ⟨i, le_refl i, by simp only [List.length_cons]; omega, h⟩
    · obtain ⟨j, hj1, hj2, hj3⟩ := ih (i + 1) s h
      exact ⟨j, by omega, by simp only [List.length_cons]; omega, hj3⟩

theorem pairwise_closed_seqs (clock : Nat → Nat) (hmono : StrictMono clock) :
    ∀ (gs : List (List (List Nat))) (i : Nat),
      ((closedOf clock i gs).map Prod.fst ++ [clock (i + gs.length)]).Pairwise (· < ·) := by
  intro gs
  induction gs with
  | nil => intro i; simp [closedOf]
  | cons g gs ih =>
    intro i
    rw [closedOf, List.map_cons, List.cons_append]
    refine List.pairwise_cons.mpr ⟨?_, ?_⟩
    · intro x hx
      rcases List.mem_append.mp hx with hx | hx
      · obtain ⟨j, hj1, hj2, rfl⟩ := mem_closedOf_fst clock gs (i + 1) x hx
        exact hmono (by omega)
      · simp at hx
        subst hx
        have hlt : i < i + (g :: gs).length := by
          simp only [List.length_cons]
          omega
        exact hmono hlt
    · have h := ih (i + 1)
      rw [show i + (g :: gs).length = i + 1 + gs.length by simp; omega]
      exact h

/-- C6 (amended): within one writer's lifetime, *provided the wall-clock
microsecond readings taken at `Open` and at each rollover are strictly
increasing*, every segment created by `advance` has a file sequence strictly
greater than that of every segment the writer created before it. -/
theorem c6_sequences_strictly_increase (clock : Nat → Nat) (hmono : StrictMono clock)
    (bss : List (List (List Nat))) :
    (segSeqs (walWriteMany (walOpen clock) bss)).Pairwise (· < ·) := by
  obtain ⟨gs, g, hsh, _⟩ :=
    writerShape_many clock bss (walOpen clock) [] [] (writerShape_open clock)
  obtain ⟨_, _, hclosed, hfs, _, _, _⟩ := hsh
  rw [segSeqs, hclosed, hfs]
  have h := pairwise_closed_seqs clock hmono gs 0
  simpa using h

/-- Witness for C6 (amended) at a concrete input: a strictly increasing clock
and two writes. -/
theorem c6_sequences_strictly_increase_witness :
    (segSeqs (walWriteMany (walOpen (fun i => i + 1)) [[[7]], [[8]]])).Pairwise (· < ·) :=
  c6_sequences_strictly_increase (fun i => i + 1) (fun _ _ h => Nat.succ_lt_succ h) [[[7]], [[8]]]

/-- Counterexample to C6 as stated: the source takes segment sequences
straight from the wall clock with no monotonicity guard, so two `advance`
calls within the same microsecond (modelled by a constant clock) produce two
segments with *equal* sequences — `advance` at a rollover does not yield a
strictly greater sequence than every prior segment. -/

theorem c6_counterexample :
    ¬ (segSeqs (walWriteMany (walOpen (fun _ => 5))
        [[List.replicate maxSegmentSize 0]])).Pairwise (· < ·) := by
  have hsum : (List.map List.length [List.replicate maxSegmentSize 0]).sum = maxSegmentSize := by
    rw [List.map_cons, List.map_nil, List.length_replicate, List.sum_cons, List.sum_nil,
      Nat.add_zero]
  have hflat : ([List.replicate maxSegmentSize 0] : List (List Nat)).flatten.length
      = maxSegmentSize := by
    rw [List.flatten_cons, List.flatten_nil, List.append_nil, List.length_replicate]
  have h5 : segSeqs (walWriteMany (walOpen (fun _ => 5))
      [[List.replicate maxSegmentSize 0]]) = [5, 5] := by
    rw [walWriteMany, List.foldl_cons, List.foldl_nil, walWrite, hsum, hflat]
    rw [if_neg (by simp [maxSegmentSize]), if_pos (by omega)]
    simp only [wAdvance, walOpen, segSeqs, List.nil_append, List.map_cons, List.map_nil]
    rfl
  rw [h5]
  simp

/-! ## Reading well-formed segment streams -/

theorem readRecord_frame (c : Codec) (dir : List DirEnt) (walSeq fuel : Nat)
    (r : RState) (p tail : List Nat)
    (hrest : r.rest = frame p ++ tail)
    (hp0 : 0 < p.length) (hp32 : p.length < 4294967296) :
    readRecord c dir walSeq (fuel + 1) r =
      some (p, ⟨r.fileSequence, r.position + 4 + p.length, tail⟩) := by
  have h1 : r.rest.take 4 = encodeLen p.length := by
    rw [hrest, frame, List.append_assoc]
    exact List.take_left' (encodeLen_length p.length)
  have h2 : r.rest.drop 4 = p ++ tail := by
    rw [hrest, frame, List.append_assoc]
    exact List.drop_left' (encodeLen_length p.length)
  have hlen : r.rest.length = 4 + (p.length + tail.length) := by
    rw [hrest, List.length_append, frame_length]
    omega
  rw [readRecord, if_neg (by omega), h1, decode_encode_of_lt hp32, if_neg (by omega),
    h2, if_pos (by rw [List.length_append]; omega), List.take_left, List.drop_left]

theorem readRecord_sentinel (c : Codec) (dir : List DirEnt) (walSeq fuel : Nat)
    (r : RState) (tail : List Nat)
    (hrest : r.rest = sentinelBytes ++ tail) :
    readRecord c dir walSeq (fuel + 1) r =
      match readerAdvance dir r.fileSequence with
      | none => none
      | some e => readRecord c dir walSeq fuel ⟨e.seq, 0, e.logical c⟩ := by
  have h1 : r.rest.take 4 = sentinelBytes := by
    rw [hrest]
    exact List.take_left' rfl
  have hlen : r.rest.length = 4 + tail.length := by
    rw [hrest, List.length_append]
    rfl
  rw [readRecord, if_neg (by omega), h1,
    if_pos (show decodeLen sentinelBytes = 0 from rfl)]

theorem readN_frames (c : Codec) (dir : List DirEnt) (walSeq : Nat)
    (g : List (List Nat)) :
    ∀ (s pos : Nat) (tail : List Nat),
      (∀ p ∈ g, 0 < p.length ∧ p.length < 4294967296) →
      readN c dir walSeq g.length ⟨s, pos, framesBytes g ++ tail⟩ =
        some (g, ⟨s, pos + (framesBytes g).length, tail⟩) := by
  induction g with
  | nil =>
    intro s pos tail _
    simp [readN, framesBytes]
  | cons p g ih =>
    intro s pos tail hg
    have hp := hg p (by simp)
    rw [List.length_cons, readN]
    rw [readRecord_frame c dir walSeq dir.length ⟨s, pos, framesBytes (p :: g) ++ tail⟩ p
      (framesBytes g ++ tail)
      (by rw [framesBytes_cons, List.append_assoc]) hp.1 hp.2]
    dsimp only
    rw [ih s (pos + 4 + p.length) tail (fun q hq => hg q (by simp [hq]))]
    dsimp only
    have harith : pos + 4 + p.length + (framesBytes g).length =
        pos + (framesBytes (p :: g)).length := by
      rw [framesBytes_cons, List.length_append, frame_length]
      omega
    rw [harith]

theorem readN_add (c : Codec) (dir : List DirEnt) (walSeq : Nat) :
    ∀ (m n : Nat) (r : RState),
      readN c dir walSeq (m + n) r =
        match readN c dir walSeq m r with
        | none => none
        | some (bs, r') =>
          match readN c dir walSeq n r' with
          | none => none
          | some (bs', r'') => some (bs ++ bs', r'') := by
  intro m
  induction m with
  | zero =>
    intro n r
    rw [Nat.zero_add]
    cases h : readN c dir walSeq n r with
    | none => simp [readN, h]
    | some br => simp [readN, h]
  | succ m ih =>
    intro n r
    rw [show m + 1 + n = (m + n) + 1 by omega, readN, readN]
    cases h1 : readRecord c dir walSeq (dir.length + 1) r with
    | none => rfl
    | some br =>
      obtain ⟨b, r'⟩ := br
      dsimp only
      rw [ih n r']
      cases h2 : readN c dir walSeq m r' with
      | none => rfl
      | some bsr =>
        obtain ⟨bs, r''⟩ := bsr
        dsimp only
        cases h3 : readN c dir walSeq n r'' with
        | none => rfl
        | some bsr' => rfl

theorem readerAdvance_of_sorted (pre : List DirEnt) (e : DirEnt) (post : List DirEnt)
    (q : Nat) (hpre : ∀ x ∈ pre, x.seq ≤ q) (he : q < e.seq) :
    readerAdvance (pre ++ e :: post) q = some e := by
  rw [readerAdvance, List.find?_append]
  have hnone : pre.find? (fun x => !(x.seq == q) && nameGt (nameOf x) (q, false)) = none := by
    rw [List.find?_eq_none]
    intro x hx hcon
    simp only [Bool.and_eq_true, Bool.not_eq_true', beq_eq_false_iff_ne] at hcon
    obtain ⟨hne, hgt⟩ := hcon
    have hg := (nameGt_raw x.seq q x.comp).mp (by simpa [nameOf] using hgt)
    have hle := hpre x hx
    rcases hg with h1 | ⟨h1, _⟩ <;> omega
  have hpe : (!(e.seq == q) && nameGt (nameOf e) (q, false)) = true := by
    simp only [nameOf, Bool.and_eq_true, Bool.not_eq_true', beq_eq_false_iff_ne]
    exact ⟨by omega, (nameGt_raw e.seq q e.comp).mpr (Or.inl he)⟩
  rw [hnone, List.find?_cons_of_pos post hpe, Option.none_or]

theorem newReaderAdvance_cons (c : Codec) (e : DirEnt) (rest : List DirEnt)
    (he : 0 < e.seq) :
    newReaderAdvance c (e :: rest) = NRResult.ok ⟨e.seq, 0, e.logical c⟩ := by
  have h := readerAdvance_of_sorted [] e rest 0 (by simp) he
  rw [List.nil_append] at h
  rw [newReaderAdvance, h]

theorem readN_jump_segment (c : Codec) (walSeq : Nat) (pre post : List DirEnt)
    (e : DirEnt) (s pos : Nat) (g : List (List Nat)) (tail : List Nat)
    (hpre : ∀ x ∈ pre, x.seq ≤ s) (hs : s < e.seq)
    (hlog : e.logical c = framesBytes g ++ tail)
    (hg : ∀ p ∈ g, 0 < p.length ∧ p.length < 4294967296)
    (hgne : g ≠ []) :
    readN c (pre ++ e :: post) walSeq g.length ⟨s, pos, sentinelBytes⟩ =
      some (g, ⟨e.seq, (framesBytes g).length, tail⟩) := by
  obtain ⟨p, g', rfl⟩ : ∃ p g', g = p :: g' := by
    cases g with
    | nil => exact absurd rfl hgne
    | cons p g' => exact ⟨p, g', rfl⟩
  have hadv := readerAdvance_of_sorted pre e post s hpre hs
  rw [List.length_cons, readN,
    readRecord_sentinel c (pre ++ e :: post) walSeq (pre ++ e :: post).length
      ⟨s, pos, sentinelBytes⟩ [] (by simp), hadv]
  dsimp only
  have hlen1 : (pre ++ e :: post).length = (pre.length + post.length) + 1 := by
    simp
    omega
  rw [hlen1,
    readRecord_frame c (pre ++ e :: post) walSeq (pre.length + post.length)
      ⟨e.seq, 0, e.logical c⟩ p (framesBytes g' ++ tail)
      (by rw [hlog, framesBytes_cons, List.append_assoc]) (hg p (by simp)).1
      (hg p (by simp)).2]
  dsimp only
  rw [readN_frames c (pre ++ e :: post) walSeq g' e.seq (0 + 4 + p.length) tail
    (fun q hq => hg q (by simp [hq]))]
  dsimp only
  have harith : 0 + 4 + p.length + (framesBytes g').length =
      (framesBytes (p :: g')).length := by
    rw [framesBytes_cons, List.length_append, frame_length]
  rw [harith]

theorem readN_across (c : Codec) (walSeq : Nat) :
    ∀ (cs : List (Nat × List (List Nat))) (pre : List DirEnt) (s pos sm : Nat)
      (gm : List (List Nat)),
      (∀ x ∈ pre, x.seq ≤ s) →
      List.Chain (· < ·) s (cs.map Prod.fst ++ [sm]) →
      (∀ sg ∈ cs, sg.2 ≠ [] ∧ ∀ p ∈ sg.2, 0 < p.length ∧ p.length < 4294967296) →
      (∀ p ∈ gm, 0 < p.length ∧ p.length < 4294967296) →
      ∃ rend,
        readN c (pre ++ closedEnts cs ++ [⟨sm, false, framesBytes gm⟩]) walSeq
            ((cs.map (fun sg => sg.2.length)).sum + gm.length) ⟨s, pos, sentinelBytes⟩ =
          some ((cs.map Prod.snd).flatten ++ gm, rend) := by
  intro cs
  induction cs with
  | nil =>
    intro pre s pos sm gm hpre hchain hcs hgm
    simp only [List.map_nil, List.sum_nil, List.flatten_nil, List.nil_append,
      Nat.zero_add, closedEnts, List.append_nil]
    cases gm with
    | nil =>
      exact ⟨⟨s, pos, sentinelBytes⟩, by simp [readN]⟩
    | cons p g' =>
      have hsm : s < sm := by simpa using hchain
      refine ⟨⟨sm, (framesBytes (p :: g')).length, []⟩, ?_⟩
      have hj := readN_jump_segment c walSeq pre [] ⟨sm, false, framesBytes (p :: g')⟩
        s pos (p :: g') [] hpre hsm (by simp [DirEnt.logical]) hgm (by simp)
      simpa using hj
  | cons sg cs ih =>
    intro pre s pos sm gm hpre hchain hcs hgm
    obtain ⟨s1, g1⟩ := sg
    have hg1 := hcs (s1, g1) (List.mem_cons_self _ _)
    rw [List.map_cons, List.cons_append, List.chain_cons] at hchain
    obtain ⟨hs1, hchain'⟩ := hchain
    obtain ⟨rend, hrend⟩ := ih (pre ++ [closedEnt s1 g1]) s1 (framesBytes g1).length sm gm
      (by
        intro x hx
        rcases List.mem_append.mp hx with hx | hx
        · exact le_of_lt (lt_of_le_of_lt (hpre x hx) hs1)
        · simp at hx
          subst hx
          simp [closedEnt])
      hchain' (fun t ht => hcs t (List.mem_cons_of_mem _ ht)) hgm
    refine ⟨rend, ?_⟩
    have hdir : pre ++ closedEnts ((s1, g1) :: cs) ++ [⟨sm, false, framesBytes gm⟩] =
        pre ++ closedEnt s1 g1 :: (closedEnts cs ++ [⟨sm, false, framesBytes gm⟩]) := by
      simp [closedEnts, List.append_assoc]
    have hdir2 : (pre ++ [closedEnt s1 g1]) ++ closedEnts cs ++ [⟨sm, false, framesBytes gm⟩] =
        pre ++ closedEnt s1 g1 :: (closedEnts cs ++ [⟨sm, false, framesBytes gm⟩]) := by
      simp [List.append_assoc]
    rw [hdir2] at hrend
    rw [List.map_cons, List.sum_cons]
    dsimp only
    have hj := readN_jump_segment c walSeq pre
      (closedEnts cs ++ [(⟨sm, false, framesBytes gm⟩ : DirEnt)])
      (closedEnt s1 g1) s pos g1 sentinelBytes hpre hs1
      (by simp [closedEnt, DirEnt.logical]) hg1.2 hg1.1
    rw [Nat.add_assoc, hdir, readN_add, hj]
    dsimp only [closedEnt] at hrend ⊢
    rw [hrend]
    dsimp only
    rw [List.map_cons, List.flatten_cons, List.append_assoc]

/-! ## From writer states to structured directories -/

theorem closedOf_map_ent (clock : Nat → Nat) :
    ∀ (gs : List (List (List Nat))) (i : Nat),
      (closedOf clock i gs).map (fun sc => (⟨sc.1, false, sc.2⟩ : DirEnt)) =
        closedEnts (closedPairs clock i gs) := by
  intro gs
  induction gs with
  | nil => intro i; rfl
  | cons g gs ih =>
    intro i
    rw [closedOf, closedPairs, List.map_cons, ih (i + 1)]
    rfl

theorem closedPairs_map_snd (clock : Nat → Nat) :
    ∀ (gs : List (List (List Nat))) (i : Nat),
      (closedPairs clock i gs).map Prod.snd = gs := by
  intro gs
  induction gs with
  | nil => intro i; rfl
  | cons g gs ih =>
    intro i
    rw [closedPairs, List.map_cons, ih (i + 1)]

theorem mem_closedPairs_snd (clock : Nat → Nat) :
    ∀ (gs : List (List (List Nat))) (i : Nat) (sg : Nat × List (List Nat)),
      sg ∈ closedPairs clock i gs → sg.2 ∈ gs := by
  intro gs
  induction gs with
  | nil => intro i sg h; simp [closedPairs] at h
  | cons g gs ih =>
    intro i sg h
    rw [closedPairs] at h
    rcases List.mem_cons.mp h with h | h
    · subst h; simp
    · exact List.mem_cons_of_mem _ (ih (i + 1) sg h)

theorem chain_closedPairs (clock : Nat → Nat) (hmono : StrictMono clock) :
    ∀ (gs : List (List (List Nat))) (i : Nat),
      List.Chain (· < ·) (clock i)
        ((closedPairs clock (i + 1) gs).map Prod.fst ++ [clock ((i + 1) + gs.length)]) := by
  intro gs
  induction gs with
  | nil =>
    intro i
    rw [closedPairs]
    simp only [List.map_nil, List.nil_append, List.length_nil, Nat.add_zero]
    exact List.Chain.cons (hmono (by omega)) List.Chain.nil
  | cons g gs ih =>
    intro i
    rw [closedPairs, List.map_cons, List.cons_append]
    refine List.Chain.cons (hmono (by omega)) ?_
    have h := ih (i + 1)
    rw [show (i + 1) + (g :: gs).length = ((i + 1) + 1) + gs.length by
      simp only [List.length_cons]; omega]
    exact h

theorem walDir_shape (clock : Nat → Nat) (w : WState) (gs : List (List (List Nat)))
    (g : List (List Nat)) (h : WriterShape clock w gs g) :
    walDir w = closedEnts (closedPairs clock 0 gs) ++
      [⟨clock gs.length, false, framesBytes g⟩] := by
  obtain ⟨_, _, hclosed, hfs, hdata, _, _⟩ := h
  rw [walDir, hclosed, hfs, hdata, closedOf_map_ent clock gs 0]

theorem closedPairs_sum_lengths (clock : Nat → Nat) (gs : List (List (List Nat)))
    (i : Nat) :
    ((closedPairs clock i gs).map (fun sg => sg.2.length)).sum = gs.flatten.length := by
  have h1 : (closedPairs clock i gs).map (fun sg => sg.2.length) = gs.map List.length := by
    rw [show (fun sg : Nat × List (List Nat) => sg.2.length) =
      (List.length ∘ Prod.snd) from rfl, ← List.map_map, closedPairs_map_snd]
  rw [h1, ← List.length_flatten]

/-! ## Claim C1: round-trip framing -/

/-- C1 (amended): for any sequence of `Write` calls, each with a non-empty
payload (the concatenation of its buffers) of total length below `2^32`, and
with strictly increasing positive clock readings at segment creations, a
reader constructed with a nil offset observes exactly the payloads
`p₁, …, pₙ` in order — across any number of segment rollovers. -/
theorem c1_roundtrip (c : Codec) (clock : Nat → Nat) (bss : List (List (List Nat)))
    (hmono : StrictMono clock) (hpos : 0 < clock 0)
    (hgood : ∀ bufs ∈ bss, 0 < bufs.flatten.length ∧ bufs.flatten.length < 4294967296) :
    ∃ r0 rend,
      newReader c (walDir (walWriteMany (walOpen clock) bss)) none = NRResult.ok r0 ∧
      readN c (walDir (walWriteMany (walOpen clock) bss))
          (walWriteMany (walOpen clock) bss).fileSequence bss.length r0 =
        some (bss.map List.flatten, rend) := by
  obtain ⟨gs, g, hsh, hflat⟩ :=
    writerShape_many clock bss (walOpen clock) [] [] (writerShape_open clock)
  simp only [List.flatten_nil, List.nil_append] at hflat
  have hpay : payloadsOf bss = bss.map List.flatten := by
    rw [payloadsOf]
    apply List.filter_eq_self.mpr
    intro p hp
    obtain ⟨b, hb, rfl⟩ := List.mem_map.mp hp
    have h1 := (hgood b hb).1
    simp only [Bool.not_eq_true', beq_eq_false_iff_ne]
    omega
  rw [hpay] at hflat
  have hdir := walDir_shape clock _ gs g hsh
  obtain ⟨_, _, _, _, _, _, hne⟩ := hsh
  have hall : ∀ p ∈ gs.flatten ++ g, 0 < p.length ∧ p.length < 4294967296 := by
    rw [hflat]
    intro p hp
    obtain ⟨b, hb, rfl⟩ := List.mem_map.mp hp
    exact hgood b hb
  have hgsg : ∀ gr ∈ gs, ∀ p ∈ gr, 0 < p.length ∧ p.length < 4294967296 := by
    intro gr hgr p hp
    exact hall p (List.mem_append_left _ (List.mem_flatten.mpr ⟨gr, hgr, hp⟩))
  have hgg : ∀ p ∈ g, 0 < p.length ∧ p.length < 4294967296 := fun p hp =>
    hall p (List.mem_append_right _ hp)
  have hn : bss.length = gs.flatten.length + g.length := by
    have h2 := congrArg List.length hflat
    simp only [List.length_append, List.length_map] at h2
    omega
  cases gs with
  | nil =>
    rw [hdir]
    simp only [closedPairs, closedEnts, List.map_nil, List.length_nil, List.nil_append]
    have hflat0 : g = bss.map List.flatten := by simpa using hflat
    have hn0 : bss.length = g.length := by simpa using hn
    refine ⟨⟨clock 0, 0, framesBytes g⟩, ⟨clock 0, 0 + (framesBytes g).length, []⟩, ?_, ?_⟩
    · rw [newReader, newReaderAdvance_cons c _ [] hpos]
      simp [DirEnt.logical]
    · have hr := readN_frames c [⟨clock 0, false, framesBytes g⟩]
        (walWriteMany (walOpen clock) bss).fileSequence g (clock 0) 0 [] hgg
      rw [List.append_nil] at hr
      rw [hn0, hr, hflat0]
  | cons g0 gs' =>
    rw [hdir, closedPairs]
    have hne0 : g0 ≠ [] := hne g0 (by simp)
    have hflat' : (g0 ++ gs'.flatten) ++ g = bss.map List.flatten := by
      simpa using hflat
    have hn' : bss.length = g0.length + (gs'.flatten.length + g.length) := by
      have h2 : (g0 :: gs').flatten.length = g0.length + gs'.flatten.length := by
        simp
      omega
    refine ⟨⟨clock 0, 0, framesBytes g0 ++ sentinelBytes⟩, ?_⟩
    have hD : closedEnts ((clock 0, g0) :: closedPairs clock (0 + 1) gs') ++
        [⟨clock (g0 :: gs').length, false, framesBytes g⟩] =
        closedEnt (clock 0) g0 :: (closedEnts (closedPairs clock 1 gs') ++
          [⟨clock (gs'.length + 1), false, framesBytes g⟩]) := by
      simp [closedEnts, List.length_cons]
    rw [hD]
    have hread1 := readN_frames c
      (closedEnt (clock 0) g0 :: (closedEnts (closedPairs clock 1 gs') ++
        [⟨clock (gs'.length + 1), false, framesBytes g⟩]))
      (walWriteMany (walOpen clock) bss).fileSequence g0 (clock 0) 0 sentinelBytes
      (hgsg g0 (by simp))
    obtain ⟨rend, hread2⟩ := readN_across c
      (walWriteMany (walOpen clock) bss).fileSequence (closedPairs clock 1 gs')
      [closedEnt (clock 0) g0] (clock 0) (0 + (framesBytes g0).length)
      (clock (gs'.length + 1)) g
      (by intro x hx; simp at hx; subst hx; simp [closedEnt])
      (by
        have h3 := chain_closedPairs clock hmono gs' 0
        rw [show (0 + 1) + gs'.length = gs'.length + 1 by omega] at h3
        exact h3)
      (by
        intro sg hsg
        refine ⟨hne sg.2 (List.mem_cons_of_mem _ (mem_closedPairs_snd clock gs' 1 sg hsg)), ?_⟩
        exact hgsg sg.2 (List.mem_cons_of_mem _ (mem_closedPairs_snd clock gs' 1 sg hsg)))
      hgg
    refine ⟨rend, ?_, ?_⟩
    · rw [newReader, newReaderAdvance_cons c _ _ (by simpa [closedEnt] using hpos)]
      simp [closedEnt, DirEnt.logical]
    · have hEq : [closedEnt (clock 0) g0] ++ closedEnts (closedPairs clock 1 gs') ++
          [(⟨clock (gs'.length + 1), false, framesBytes g⟩ : DirEnt)] =
          closedEnt (clock 0) g0 :: (closedEnts (closedPairs clock 1 gs') ++
            [⟨clock (gs'.length + 1), false, framesBytes g⟩]) := by
        simp
      rw [hEq] at hread2
      rw [closedPairs_sum_lengths clock gs' 1] at hread2
      rw [closedPairs_map_snd clock gs' 1] at hread2
      rw [hn', readN_add, hread1]
      dsimp only
      rw [hread2]
      dsimp only
      rw [← hflat']
      rw [List.append_assoc]

theorem readN_one (c : Codec) (dir : List DirEnt) (walSeq : Nat) (r : RState) :
    readN c dir walSeq 1 r =
      match readRecord c dir walSeq (dir.length + 1) r with
      | none => none
      | some (b, r') => some ([b], r') := by
  show readN c dir walSeq (0 + 1) r = _
  rw [readN]
  cases h : readRecord c dir walSeq (dir.length + 1) r with
  | none => rfl
  | some br => rfl

theorem readRecord_short (c : Codec) (dir : List DirEnt) (walSeq fuel : Nat)
    (r : RState) (h : r.rest.length < 4) :
    readRecord c dir walSeq (fuel + 1) r = none := by
  rw [readRecord, if_pos h]

/-- Witness for C1 at a concrete input: two writes (the second with two
buffers) are read back in order by a fresh nil-offset reader. -/
theorem c1_roundtrip_witness :
    ∃ r0 rend,
      newReader idCodec
          (walDir (walWriteMany (walOpen (fun i => i + 1)) [[[104, 105]], [[7], [8, 9]]]))
          none = NRResult.ok r0 ∧
      readN idCodec
          (walDir (walWriteMany (walOpen (fun i => i + 1)) [[[104, 105]], [[7], [8, 9]]]))
          (walWriteMany (walOpen (fun i => i + 1)) [[[104, 105]], [[7], [8, 9]]]).fileSequence
          2 r0 =
        some ([[104, 105], [7, 8, 9]], rend) := by
  have h := c1_roundtrip idCodec (fun i => i + 1) [[[104, 105]], [[7], [8, 9]]]
    (fun _ _ h => Nat.succ_lt_succ h) (by decide) (by decide)
  simpa using h

/-- Counterexample to C1 as stated: a single `Write` whose non-empty payload
has length `2^32` is mis-framed — `uint32(length)` truncates to 0, so the
length prefix *is* the sentinel.  The fresh nil-offset reader consumes it as
end-of-segment, advances past the rolled-over segment, and blocks on the
empty active segment: it never receives the payload (the claim asserts it
receives exactly that payload). -/
theorem c1_counterexample :
    readFromStart idCodec
        (walDir (walWriteMany (walOpen (fun i => i + 1)) [[List.replicate 4294967296 7]]))
        (walWriteMany (walOpen (fun i => i + 1)) [[List.replicate 4294967296 7]]).fileSequence
        1 = none := by
  have hsum : (List.map List.length [List.replicate 4294967296 (7 : Nat)]).sum =
      4294967296 := by
    rw [List.map_cons, List.map_nil, List.length_replicate, List.sum_cons, List.sum_nil,
      Nat.add_zero]
  have hflat : ([List.replicate 4294967296 (7 : Nat)] : List (List Nat)).flatten =
      List.replicate 4294967296 7 := by
    rw [List.flatten_cons, List.flatten_nil, List.append_nil]
  have hflen : ([List.replicate 4294967296 (7 : Nat)] : List (List Nat)).flatten.length =
      4294967296 := by
    rw [hflat, List.length_replicate]
  have henc : encodeLen 4294967296 = sentinelBytes := by decide
  have hstep : walWriteMany (walOpen (fun i => i + 1)) [[List.replicate 4294967296 7]] =
      wAdvance
        { walOpen (fun i => i + 1) with
          segData := (walOpen (fun i => i + 1)).segData ++ encodeLen 4294967296 ++
            List.replicate 4294967296 7 ++ sentinelBytes
          position := (walOpen (fun i => i + 1)).position + 4 + 4294967296 } := by
    rw [walWriteMany, List.foldl_cons, List.foldl_nil, walWrite, hsum, hflen, hflat,
      if_neg (by norm_num), if_pos (by simp [maxSegmentSize, walOpen])]
  have hdir : walDir (walWriteMany (walOpen (fun i => i + 1))
      [[List.replicate 4294967296 7]]) =
      [⟨1, false, sentinelBytes ++ (List.replicate 4294967296 7 ++ sentinelBytes)⟩,
       ⟨2, false, []⟩] := by
    rw [hstep]
    dsimp only [walDir, wAdvance, walOpen]
    rw [henc]
    simp only [List.nil_append, List.map_cons, List.map_nil, List.append_assoc,
      List.cons_append]
  have hfs : (walWriteMany (walOpen (fun i => i + 1))
      [[List.replicate 4294967296 7]]).fileSequence = 2 := by
    rw [hstep]
    dsimp only [wAdvance, walOpen]
  rw [hdir, hfs, readFromStart]
  have hnr : newReader idCodec
      [⟨1, false, sentinelBytes ++ (List.replicate 4294967296 7 ++ sentinelBytes)⟩,
       ⟨2, false, []⟩] none =
      NRResult.ok ⟨1, 0, sentinelBytes ++ (List.replicate 4294967296 7 ++ sentinelBytes)⟩ := by
    rw [newReader, newReaderAdvance_cons idCodec _ _ Nat.one_pos]
    rfl
  rw [hnr]
  dsimp only
  rw [readN_one idCodec
    [⟨1, false, sentinelBytes ++ (List.replicate 4294967296 7 ++ sentinelBytes)⟩,
     ⟨2, false, []⟩] 2
    ⟨1, 0, sentinelBytes ++ (List.replicate 4294967296 7 ++ sentinelBytes)⟩]
  rw [readRecord_sentinel idCodec
    [⟨1, false, sentinelBytes ++ (List.replicate 4294967296 7 ++ sentinelBytes)⟩,
     ⟨2, false, []⟩] 2
    ([⟨1, false, sentinelBytes ++ (List.replicate 4294967296 7 ++ sentinelBytes)⟩,
      ⟨2, false, []⟩] : List DirEnt).length
    ⟨1, 0, sentinelBytes ++ (List.replicate 4294967296 7 ++ sentinelBytes)⟩
    (List.replicate 4294967296 7 ++ sentinelBytes) rfl]
  have hadv : readerAdvance
      [⟨1, false, sentinelBytes ++ (List.replicate 4294967296 7 ++ sentinelBytes)⟩,
       ⟨2, false, []⟩] 1 = some ⟨2, false, []⟩ := by
    have h := readerAdvance_of_sorted
      [⟨1, false, sentinelBytes ++ (List.replicate 4294967296 7 ++ sentinelBytes)⟩]
      ⟨2, false, []⟩ [] 1
      (by
        intro x hx
        rw [List.mem_singleton] at hx
        subst hx
        exact Nat.le.refl)
      Nat.one_lt_two
    exact h
  rw [hadv]
  dsimp only
  have hlen2 : ([⟨1, false, sentinelBytes ++ (List.replicate 4294967296 7 ++ sentinelBytes)⟩,
      ⟨2, false, []⟩] : List DirEnt).length = 1 + 1 := rfl
  rw [hlen2]
  rw [readRecord_short idCodec
    [⟨1, false, sentinelBytes ++ (List.replicate 4294967296 7 ++ sentinelBytes)⟩,
     ⟨2, false, []⟩] 2 1
    ⟨2, 0, DirEnt.logical idCodec ⟨2, false, []⟩⟩ (by rw [show DirEnt.logical idCodec ⟨2, false, []⟩ = [] from rfl]; norm_num)]
  rfl

/-! ## Claim C7: `NewReader` at a future offset -/

/-- C7 (amended): when `NewReader` is given an offset whose file sequence
(after legacy rescaling) is greater than every existing segment's sequence,
it does not block waiting for a segment at or after that sequence: the
cutoff scan finds nothing and `NewReader` falls back to `Reader.advance`
from the zero-initialized reader state, opening the *oldest* segment with
nonzero sequence at position 0 (from which reads replay the existing log);
it blocks only when no such segment exists at all. -/
theorem c7_future_offset_falls_back (c : Codec) (dir : List DirEnt) (oseq pos : Nat)
    (h18 : oseq < 10 ^ 18)
    (hlt : ∀ e ∈ dir, e.seq < oseq) :
    newReader c dir (some (oseq, pos)) = newReaderAdvance c dir ∧
      (readerAdvance dir 0 = none → newReader c dir (some (oseq, pos)) = NRResult.blocked) ∧
      (∀ e, readerAdvance dir 0 = some e →
        newReader c dir (some (oseq, pos)) = NRResult.ok ⟨e.seq, 0, e.logical c⟩) := by
  have hadj : legacyAdjust oseq = oseq := by rw [legacyAdjust, if_neg (by omega)]
  have hfind : dir.find? (fun x => nameGe (nameOf x) (oseq, false)) = none := by
    rw [List.find?_eq_none]
    intro x hx hcon
    have hxle := (nameGe_raw (nameOf x) oseq).mp hcon
    have hxlt := hlt x hx
    simp only [nameOf] at hxle
    omega
  have hmain : newReader c dir (some (oseq, pos)) = newReaderAdvance c dir := by
    simp only [newReader, hadj, hfind]
  refine ⟨hmain, fun hadv => ?_, fun e hadv => ?_⟩
  · rw [hmain, newReaderAdvance, hadv]
  · rw [hmain, newReaderAdvance, hadv]

/-- Witness for C7 (amended) at a concrete input: future offset `(7, 0)` over
a directory holding only sequence 5 falls back to opening sequence 5. -/
theorem c7_future_offset_falls_back_witness :
    newReader idCodec [⟨5, false, [0, 0, 0, 1, 97]⟩] (some (7, 0)) =
        newReaderAdvance idCodec [⟨5, false, [0, 0, 0, 1, 97]⟩] ∧
      (readerAdvance [⟨5, false, [0, 0, 0, 1, 97]⟩] 0 = none →
        newReader idCodec [⟨5, false, [0, 0, 0, 1, 97]⟩] (some (7, 0)) = NRResult.blocked) ∧
      (∀ e, readerAdvance [⟨5, false, [0, 0, 0, 1, 97]⟩] 0 = some e →
        newReader idCodec [⟨5, false, [0, 0, 0, 1, 97]⟩] (some (7, 0)) =
          NRResult.ok ⟨e.seq, 0, e.logical idCodec⟩) :=
  c7_future_offset_falls_back idCodec [⟨5, false, [0, 0, 0, 1, 97]⟩] 7 0
    (by norm_num) (by decide)

/-- Counterexample to C7 as stated: with one existing segment (sequence 5,
one record `[97]`) and offset `(7, 0)`, `NewReader` does not block until a
segment at or after sequence 7 exists — it immediately opens the sequence-5
segment at position 0, and the first `Read` returns that older segment's
record. -/
theorem c7_counterexample :
    (∀ e ∈ ([⟨5, false, [0, 0, 0, 1, 97]⟩] : List DirEnt), e.seq < 7) ∧
      newReader idCodec [⟨5, false, [0, 0, 0, 1, 97]⟩] (some (7, 0)) =
        NRResult.ok ⟨5, 0, [0, 0, 0, 1, 97]⟩ ∧
      readRecord idCodec [⟨5, false, [0, 0, 0, 1, 97]⟩] 5 2 ⟨5, 0, [0, 0, 0, 1, 97]⟩ =
        some ([97], ⟨5, 5, []⟩) :=
  ⟨by decide, by decide, by decide⟩

/-! ## Claim C2: compression transparency -/

theorem compressBefore_logical (c : Codec) (cut : Nat) :
    ∀ dir : List DirEnt,
      (compressBefore c cut dir).map (fun e => (e.seq, e.logical c)) =
        dir.map (fun e => (e.seq, e.logical c)) := by
  intro dir
  induction dir with
  | nil => rfl
  | cons e rest ih =>
    cases rest with
    | nil => rfl
    | cons f t =>
      rw [compressBefore]
      by_cases hge : nameGe (nameOf e) (cut, false) = true
      · rw [if_pos hge]
      · rw [if_neg hge]
        by_cases hcomp : e.comp = true
        · rw [if_pos hcomp, List.map_cons, List.map_cons, ih]
        · rw [if_neg hcomp, List.map_cons, List.map_cons, ih]
          congr 1
          have hlog : DirEnt.logical c ⟨e.seq, true, c.enc e.stored⟩ = e.logical c := by
            rw [DirEnt.logical, if_pos rfl, c.round, DirEnt.logical,
              if_neg (by simpa using hcomp)]
          rw [Prod.mk.injEq]
          exact ⟨rfl, hlog⟩

theorem readerAdvance_eq_find (dir : List DirEnt) (q : Nat) :
    readerAdvance dir q = dir.find? (fun e => decide (q < e.seq)) := by
  rw [readerAdvance]
  congr 1
  funext e
  simp only [nameOf, nameGt, nameLt]
  by_cases h1 : e.seq = q
  · subst h1
    simp
  · by_cases h2 : q < e.seq
    · simp [h1, h2]
      all_goals omega
    · simp [h1, h2]
      all_goals omega

theorem readerAdvance_congr (c : Codec) :
    ∀ {d1 d2 : List DirEnt},
      d1.map (fun e => (e.seq, e.logical c)) = d2.map (fun e => (e.seq, e.logical c)) →
      ∀ q, (readerAdvance d1 q).map (fun e => (e.seq, e.logical c)) =
        (readerAdvance d2 q).map (fun e => (e.seq, e.logical c)) := by
  intro d1
  induction d1 with
  | nil =>
    intro d2 h q
    cases d2 with
    | nil => rfl
    | cons f t => simp at h
  | cons e d1 ih =>
    intro d2 h q
    cases d2 with
    | nil => simp at h
    | cons f t =>
      rw [List.map_cons, List.map_cons] at h
      have hhead : e.seq = f.seq ∧ e.logical c = f.logical c := by
        have h1 := List.head_eq_of_cons_eq h
        exact ⟨congrArg Prod.fst h1, congrArg Prod.snd h1⟩
      have htail := List.tail_eq_of_cons_eq h
      rw [readerAdvance_eq_find, readerAdvance_eq_find, List.find?_cons, List.find?_cons]
      rw [show (decide (q < f.seq)) = (decide (q < e.seq)) by rw [hhead.1]]
      cases hda : decide (q < e.seq) with
      | false =>
        have h1 := ih htail q
        rw [readerAdvance_eq_find, readerAdvance_eq_find] at h1
        exact h1
      | true =>
        dsimp only [Option.map]
        rw [hhead.1, hhead.2]

theorem readRecord_congr (c : Codec) {d1 d2 : List DirEnt}
    (h : d1.map (fun e => (e.seq, e.logical c)) = d2.map (fun e => (e.seq, e.logical c)))
    (walSeq : Nat) :
    ∀ (fuel : Nat) (r : RState),
      readRecord c d1 walSeq fuel r = readRecord c d2 walSeq fuel r := by
  intro fuel
  induction fuel with
  | zero => intro r; rfl
  | succ fuel ih =>
    intro r
    rw [readRecord, readRecord]
    by_cases h4 : r.rest.length < 4
    · rw [if_pos h4, if_pos h4]
    · rw [if_neg h4, if_neg h4]
      have hadv := readerAdvance_congr c h r.fileSequence
      by_cases hL : decodeLen (r.rest.take 4) = 0
      · rw [if_pos hL, if_pos hL]
        cases ha1 : readerAdvance d1 r.fileSequence with
        | none =>
          rw [ha1] at hadv
          cases ha2 : readerAdvance d2 r.fileSequence with
          | none => rfl
          | some e2 => rw [ha2] at hadv; simp at hadv
        | some e1 =>
          rw [ha1] at hadv
          cases ha2 : readerAdvance d2 r.fileSequence with
          | none => rw [ha2] at hadv; simp at hadv
          | some e2 =>
            rw [ha2] at hadv
            dsimp only [Option.map] at hadv
            simp only [Option.some.injEq, Prod.mk.injEq] at hadv
            dsimp only
            rw [hadv.1, hadv.2, ih]
      · rw [if_neg hL, if_neg hL]
        by_cases hfit : decodeLen (r.rest.take 4) ≤ (r.rest.drop 4).length
        · rw [if_pos hfit, if_pos hfit]
        · rw [if_neg hfit, if_neg hfit]
          by_cases hm : r.fileSequence < walSeq
          · rw [if_pos hm, if_pos hm]
            cases ha1 : readerAdvance d1 r.fileSequence with
            | none =>
              rw [ha1] at hadv
              cases ha2 : readerAdvance d2 r.fileSequence with
              | none => rfl
              | some e2 => rw [ha2] at hadv; simp at hadv
            | some e1 =>
              rw [ha1] at hadv
              cases ha2 : readerAdvance d2 r.fileSequence with
              | none => rw [ha2] at hadv; simp at hadv
              | some e2 =>
                rw [ha2] at hadv
                dsimp only [Option.map] at hadv
                simp only [Option.some.injEq, Prod.mk.injEq] at hadv
                dsimp only
                rw [hadv.1, hadv.2, ih]
          · rw [if_neg hm, if_neg hm]

theorem readN_congr (c : Codec) {d1 d2 : List DirEnt}
    (h : d1.map (fun e => (e.seq, e.logical c)) = d2.map (fun e => (e.seq, e.logical c)))
    (walSeq : Nat) :
    ∀ (n : Nat) (r : RState), readN c d1 walSeq n r = readN c d2 walSeq n r := by
  have hlen : d1.length = d2.length := by
    have h2 := congrArg List.length h
    simpa using h2
  intro n
  induction n with
  | zero => intro r; rfl
  | succ n ih =>
    intro r
    rw [readN, readN, hlen, readRecord_congr c h walSeq (d2.length + 1) r]
    cases readRecord c d2 walSeq (d2.length + 1) r with
    | none => rfl
    | some br =>
      obtain ⟨b, r1⟩ := br
      dsimp only
      rw [ih r1]

theorem newReaderAdvance_congr (c : Codec) {d1 d2 : List DirEnt}
    (h : d1.map (fun e => (e.seq, e.logical c)) = d2.map (fun e => (e.seq, e.logical c))) :
    newReaderAdvance c d1 = newReaderAdvance c d2 := by
  have hadv := readerAdvance_congr c h 0
  rw [newReaderAdvance, newReaderAdvance]
  cases ha1 : readerAdvance d1 0 with
  | none =>
    rw [ha1] at hadv
    cases ha2 : readerAdvance d2 0 with
    | none => rfl
    | some e2 => rw [ha2] at hadv; simp at hadv
  | some e1 =>
    rw [ha1] at hadv
    cases ha2 : readerAdvance d2 0 with
    | none => rw [ha2] at hadv; simp at hadv
    | some e2 =>
      rw [ha2] at hadv
      dsimp only [Option.map] at hadv
      simp only [Option.some.injEq, Prod.mk.injEq] at hadv
      dsimp only
      rw [hadv.1, hadv.2]

theorem readFromStart_congr (c : Codec) {d1 d2 : List DirEnt}
    (h : d1.map (fun e => (e.seq, e.logical c)) = d2.map (fun e => (e.seq, e.logical c)))
    (walSeq n : Nat) :
    readFromStart c d1 walSeq n = readFromStart c d2 walSeq n := by
  rw [readFromStart, readFromStart, newReader, newReader, newReaderAdvance_congr c h]
  cases newReaderAdvance c d2 with
  | ok r =>
    dsimp only
    rw [readN_congr c h walSeq n r]
  | error => rfl
  | blocked => rfl

/-- C2: compression transparency.  `CompressBefore` replaces each raw
segment below the cutoff by its compressed twin whose decoded byte stream is
byte-identical (the entry keeps its sequence and its logical bytes), and a
fresh reader from the start of the compressed directory returns exactly the
same payloads in the same order as it would over the uncompressed
segments. -/
theorem c2_compression_transparency (c : Codec) (dir : List DirEnt) (cut walSeq n : Nat) :
    ((compressBefore c cut dir).map (fun e => (e.seq, e.logical c)) =
        dir.map (fun e => (e.seq, e.logical c))) ∧
      readFromStart c (compressBefore c cut dir) walSeq n = readFromStart c dir walSeq n :=
  ⟨compressBefore_logical c cut dir,
   readFromStart_congr c (compressBefore_logical c cut dir) walSeq n⟩

end Wal
